import Mathlib

/-!
Verification of the `contains` repository: a filter-bucketed sparse set
(`Set` in `contains.go`, modelled here as `GoSet`) and a growable dense
bitset (`Dense` in `dense.go`, modelled here as `GoDense`).

The embedding models the 64-bit platform branch of the source: `uintptr`
and `uint` are 64-bit words, represented as `Nat` with arithmetic taken
explicitly modulo `2 ^ 64` where the source relies on wraparound.

Go slices distinguish length from capacity, and both structures exploit
that distinction (`Reset` truncates length but keeps capacity, and later
growth re-exposes the memory beyond the length). The embedding therefore
keeps, next to the visible part of each slice, the list of stale elements
that sit between its length and its capacity (`spare` fields); reslicing
moves elements between the visible part and the spare part exactly as the
source's `s.keys[:k+2]` / `s.v[:w]` expressions do.
-/

/-- Width in bits of the modelled machine word (`uintptr` / `uint`, 64-bit). -/
def wordBits : Nat := 64

/-- `2 ^ 64`: the modulus of 64-bit `uintptr` arithmetic. -/
def wordMod : Nat := 2 ^ 64

/-- Go `func filter(key uintptr) uintptr`, 64-bit branch: Knuth's MMIX LCG,
with `uintptr` multiply-add wrapping modulo `2 ^ 64`. -/
def filter (key : Nat) : Nat :=
  (6364136223846793005 * key + 1442695040888963407) % wordMod

/-- Helper for `popCount`: sum the low `fuel` bits of `n`. -/
def popCountAux : Nat → Nat → Nat
  | 0, _ => 0
  | fuel + 1, n => n % 2 + popCountAux fuel (n / 2)

/-- Go `bits.OnesCount64(uint64(x))`: number of set bits of `x` as a 64-bit
word (the `uint64` conversion truncates modulo `2 ^ 64`). -/
def popCount (x : Nat) : Nat := popCountAux wordBits (x % wordMod)

/-- Go `x &^ y` (AND NOT) on 64-bit words: complement `y` against the
all-ones word and intersect. -/
def andNot (x y : Nat) : Nat := x &&& ((wordMod - 1) ^^^ (y % wordMod))

/-- Go constant `minDiff`: the minimum number of bits a new key must add to
be merged into the last existing list. -/
def minDiff : Nat := 2

/-- Go constant `defCap`: initial capacity for new member lists. (Inner-list
capacity is not observable in the value semantics, so it plays no further
role in the embedding.) -/
def defCap : Nat := 8

/-- Go `type Set struct { filters []uintptr; keys [][]uintptr }`.
`keys` is the visible slice `s.keys[0:len(s.keys)]`; `spare` holds the
slice elements between `len(s.keys)` and `cap(s.keys)`, which `Reset`
leaves behind and `Add` can re-expose by reslicing. -/
structure GoSet where
  filters : List Nat
  keys : List (List Nat)
  spare : List (List Nat)
deriving Repr, DecidableEq

/-- The zero value `Set{}`. -/
def emptySet : GoSet := ⟨[], [], []⟩

/-- Index of the first filter that is a bit-superset of `r`: the bucket at
which the `for k, f := range s.filters { if f&r == r { ... } }` loop in
`Add` stops. -/
def firstMatch (r : Nat) : List Nat → Option Nat
  | [] => none
  | f :: fs => if f &&& r = r then some 0 else (firstMatch r fs).map (· + 1)

/-- Go `s.keys[:k+2]` (when `k+1 < cap(s.keys)`) or
`append(s.keys, make([]uintptr, 0, defCap))`: the member-list slice after
`Add` has made room for a new bucket. `s.keys ++ s.spare` is the backing
array out to its capacity. -/
def newSlots (s : GoSet) : List (List Nat) :=
  if s.filters.length < s.keys.length + s.spare.length then
    (s.keys ++ s.spare).take (s.filters.length + 1)
  else s.keys ++ [[]]

/-- The spare part of the member-list backing left over after `newSlots`. -/
def newSpare (s : GoSet) : List (List Nat) :=
  if s.filters.length < s.keys.length + s.spare.length then
    (s.keys ++ s.spare).drop (s.filters.length + 1)
  else s.spare

/-- Go `func (s *Set) Add(key uintptr) bool`. Returns the Go return value
paired with the updated receiver. -/
def GoSet.Add (s : GoSet) (key : Nat) : Bool × GoSet :=
  match firstMatch (filter key) s.filters with
  | some k =>
    if key ∈ s.keys.getD k [] then (false, s)
    else (true, { s with keys := s.keys.set k (s.keys.getD k [] ++ [key]) })
  | none =>
    if 0 < s.filters.length ∧
        minDiff ≤ popCount (andNot (filter key)
          (s.filters.getD (s.filters.length - 1) 0)) then
      (true, { s with
        filters := s.filters.set (s.filters.length - 1)
          (s.filters.getD (s.filters.length - 1) 0 ||| filter key),
        keys := s.keys.set (s.filters.length - 1)
          (s.keys.getD (s.filters.length - 1) [] ++ [key]) })
    else
      (true, { filters := s.filters ++ [filter key],
               keys := (newSlots s).set s.filters.length
                 ((newSlots s).getD s.filters.length [] ++ [key]),
               spare := newSpare s })

/-- The bucket loop of Go `func (s *Set) Contains(key uintptr) bool`:
scan every filter in index order; on a bit-superset match scan that
bucket's member list, and keep going past buckets that miss. -/
def containsFrom (key r : Nat) : List Nat → List (List Nat) → Bool
  | [], _ => false
  | f :: fs, ls =>
    if f &&& r = r ∧ key ∈ ls.headD [] then true
    else containsFrom key r fs ls.tail

/-- Go `func (s *Set) Contains(key uintptr) bool`. -/
def GoSet.Contains (s : GoSet) (key : Nat) : Bool :=
  containsFrom key (filter key) s.filters s.keys

/-- Go `func (s *Set) Keys() []uintptr`: append every bucket's members, in
bucket order, to an initially empty result. -/
def GoSet.Keys (s : GoSet) : List Nat :=
  s.keys.foldl (fun r l => r ++ l) []

/-- Go `func (s *Set) Reset()`: truncate `filters`, empty each visible
member list in place; the spare slots beyond `len(s.keys)` are untouched.
(The source's `s.filters != nil` guard only skips the body when everything
is already empty, which is value-irrelevant.) -/
def GoSet.Reset (s : GoSet) : GoSet :=
  { filters := [], keys := s.keys.map (fun _ => []), spare := s.spare }

/-- Go `type Dense struct { v []uint }`; `v` is the visible slice, `spare`
the stale words between `len(s.v)` and `cap(s.v)`. -/
structure GoDense where
  v : List Nat
  spare : List Nat
deriving Repr, DecidableEq

/-- The zero value `Dense{}`. -/
def emptyDense : GoDense := ⟨[], []⟩

/-- Go `func (s *Dense) grow(w int)`: reallocate when `w` exceeds capacity,
re-expose and zero-fill words when `w` exceeds only the length, otherwise
do nothing. -/
def GoDense.grow (s : GoDense) (w : Nat) : GoDense :=
  if s.v.length + s.spare.length ≤ w then
    ⟨s.v ++ List.replicate (w - s.v.length) 0, []⟩
  else if s.v.length ≤ w then
    ⟨s.v ++ List.replicate (w - s.v.length) 0, s.spare.drop (w - s.v.length)⟩
  else s

/-- Go `func (s *Dense) Add(key int)` (keys are non-negative by the caller
contract, so `key : Nat`). -/
def GoDense.Add (s : GoDense) (key : Nat) : GoDense :=
  let w := key / wordBits
  let s1 := if s.v.length ≤ w then s.grow (w + 1) else s
  { s1 with v := s1.v.set w (s1.v.getD w 0 ||| (1 <<< (key % wordBits))) }

/-- Go `func (s *Dense) Contains(key int) bool`. -/
def GoDense.Contains (s : GoDense) (key : Nat) : Bool :=
  let w := key / wordBits
  if s.v.length ≤ w then false
  else decide (s.v.getD w 0 &&& (1 <<< (key % wordBits)) ≠ 0)

/-- Go `func (s *Dense) Reset()`: truncate to length zero, keeping the old
words in the spare capacity. (The `s.v != nil` guard is value-irrelevant.) -/
def GoDense.Reset (s : GoDense) : GoDense := ⟨[], s.v ++ s.spare⟩

/-- Go `func (s *Dense) Grow(key int)`. -/
def GoDense.Grow (s : GoDense) (key : Nat) : GoDense :=
  s.grow ((key + wordBits - 1) / wordBits)

/-- Fold a list of keys into a set by `Add`, starting from `s`. -/
def addAll (s : GoSet) (ks : List Nat) : GoSet :=
  ks.foldl (fun t k => (t.Add k).2) s

/-- The set obtained by `Add`-ing the keys `ks`, in order, to the zero set. -/
def runAdds (ks : List Nat) : GoSet := addAll emptySet ks

/-! ### List indexing helpers -/

theorem getD_of_lt {α : Type} (l : List α) {i : Nat} (d : α) (h : i < l.length) :
    l.getD i d = l[i] := by
  simp [List.getD_eq_getElem?_getD, List.getElem?_eq_getElem h]

theorem getD_of_ge {α : Type} (l : List α) {i : Nat} (d : α) (h : l.length ≤ i) :
    l.getD i d = d := by
  simp [List.getD_eq_getElem?_getD, List.getElem?_eq_none h]

theorem getD_set_self {α : Type} (l : List α) {i : Nat} (a d : α) (h : i < l.length) :
    (l.set i a).getD i d = a := by
  simp [List.getD_eq_getElem?_getD, List.getElem?_set_self h]

theorem getD_set_ne {α : Type} (l : List α) {i j : Nat} (a d : α) (h : i ≠ j) :
    (l.set i a).getD j d = l.getD j d := by
  simp [List.getD_eq_getElem?_getD, List.getElem?_set_ne h]

theorem getD_append_lt {α : Type} (l₁ l₂ : List α) {i : Nat} (d : α) (h : i < l₁.length) :
    (l₁ ++ l₂).getD i d = l₁.getD i d := by
  simp [List.getD_eq_getElem?_getD, List.getElem?_append, h]

theorem getD_append_ge {α : Type} (l₁ l₂ : List α) {i : Nat} (d : α) (h : l₁.length ≤ i) :
    (l₁ ++ l₂).getD i d = l₂.getD (i - l₁.length) d := by
  simp [List.getD_eq_getElem?_getD, List.getElem?_append, Nat.not_lt.mpr h]

theorem getD_take {α : Type} (l : List α) {i n : Nat} (d : α) (h : i < n) :
    (l.take n).getD i d = l.getD i d := by
  simp [List.getD_eq_getElem?_getD, List.getElem?_take, h]

theorem getD_drop {α : Type} (l : List α) (i n : Nat) (d : α) :
    (l.drop n).getD i d = l.getD (n + i) d := by
  simp [List.getD_eq_getElem?_getD, List.getElem?_drop]

theorem getD_mem {α : Type} (l : List α) {i : Nat} (d : α) (h : i < l.length) :
    l.getD i d ∈ l := by
  rw [getD_of_lt l d h]; exact List.getElem_mem h

theorem getD_tail {α : Type} (l : List α) (i : Nat) (d : α) :
    l.tail.getD i d = l.getD (i + 1) d := by
  cases l <;> simp [List.getD]

theorem headD_eq_getD {α : Type} (l : List α) (d : α) : l.headD d = l.getD 0 d := by
  cases l <;> simp

/-! ### Bitwise helpers -/

theorem land_lor_left {f g x : Nat} (h : f &&& x = x) : (f ||| g) &&& x = x := by
  apply Nat.eq_of_testBit_eq
  intro i
  have hi : (f &&& x).testBit i = x.testBit i := by rw [h]
  rw [Nat.testBit_land] at hi
  rw [Nat.testBit_land, Nat.testBit_lor]
  cases hx : x.testBit i with
  | false => simp
  | true =>
      rw [hx] at hi
      simp only [Bool.and_true] at hi
      simp [hi]

theorem lor_land_self (f r : Nat) : (f ||| r) &&& r = r := by
  rw [Nat.lor_comm]
  exact land_lor_left (Nat.and_self r)

theorem land_shift_self_ne_zero {x b : Nat} : (x ||| 1 <<< b) &&& (1 <<< b) ≠ 0 := by
  intro h
  have := congrArg (Nat.testBit · b) h
  simp only [Nat.testBit_land, Nat.testBit_lor, Nat.zero_testBit] at this
  rw [Nat.shiftLeft_eq, Nat.one_mul] at this
  simp [Nat.testBit_two_pow_self] at this

theorem land_shift_of_ne {x b c : Nat} (hx : x &&& (1 <<< c) = 0) (hbc : b ≠ c) :
    (x ||| 1 <<< b) &&& (1 <<< c) = 0 := by
  apply Nat.eq_of_testBit_eq
  intro i
  rw [Nat.testBit_land, Nat.testBit_lor, Nat.zero_testBit]
  rcases eq_or_ne i c with rfl | hic
  · have hxc : x.testBit i = false := by
      have := congrArg (Nat.testBit · i) hx
      simp only [Nat.testBit_land, Nat.zero_testBit] at this
      rw [Nat.shiftLeft_eq, Nat.one_mul, Nat.testBit_two_pow_self] at this
      simpa using this
    have hbi : (1 <<< b).testBit i = false := by
      rw [Nat.shiftLeft_eq, Nat.one_mul]
      exact Nat.testBit_two_pow_of_ne hbc
    simp [hxc, hbi]
  · have : (1 <<< c).testBit i = false := by
      rw [Nat.shiftLeft_eq, Nat.one_mul]
      exact Nat.testBit_two_pow_of_ne (Ne.symm hic)
    simp [this]

/-! ### firstMatch and containsFrom characterizations -/

theorem firstMatch_eq_none {r : Nat} {fs : List Nat} :
    firstMatch r fs = none ↔ ∀ f ∈ fs, ¬(f &&& r = r) := by
  induction fs with
  | nil => simp [firstMatch]
  | cons f t ih =>
      by_cases hf : f &&& r = r
      · simp [firstMatch, hf]
      · simp [firstMatch, hf, ih]

theorem firstMatch_eq_some {r : Nat} {fs : List Nat} {i : Nat}
    (h : firstMatch r fs = some i) :
    i < fs.length ∧ fs.getD i 0 &&& r = r ∧ ∀ j < i, ¬(fs.getD j 0 &&& r = r) := by
  induction fs generalizing i with
  | nil => simp [firstMatch] at h
  | cons f t ih =>
      by_cases hf : f &&& r = r
      · simp only [firstMatch, if_pos hf, Option.some.injEq] at h
        subst h
        refine ⟨Nat.succ_pos _, hf, ?_⟩
        intro j hj
        exact absurd hj (Nat.not_lt_zero j)
      · simp only [firstMatch, if_neg hf, Option.map_eq_some'] at h
        obtain ⟨i', hi', rfl⟩ := h
        obtain ⟨h1, h2, h3⟩ := ih hi'
        refine ⟨Nat.succ_lt_succ h1, h2, ?_⟩
        intro j hj
        cases j with
        | zero => simpa [List.getD] using hf
        | succ j' => exact h3 j' (Nat.lt_of_succ_lt_succ hj)

theorem containsFrom_eq_true {key r : Nat} {fs : List Nat} {ls : List (List Nat)} :
    containsFrom key r fs ls = true ↔
      ∃ i, i < fs.length ∧ fs.getD i 0 &&& r = r ∧ key ∈ ls.getD i [] := by
  induction fs generalizing ls with
  | nil => simp [containsFrom]
  | cons f t ih =>
      by_cases hf : f &&& r = r ∧ key ∈ ls.headD []
      · simp only [containsFrom, if_pos hf]
        refine ⟨fun _ => ⟨0, Nat.succ_pos _, ?_, ?_⟩, fun _ => trivial⟩
        · simpa [List.getD] using hf.1
        · rw [← headD_eq_getD]; exact hf.2
      · simp only [containsFrom, if_neg hf, ih]
        constructor
        · rintro ⟨i, h1, h2, h3⟩
          refine ⟨i + 1, Nat.succ_lt_succ h1, h2, ?_⟩
          rw [← getD_tail]; exact h3
        · rintro ⟨i, h1, h2, h3⟩
          cases i with
          | zero =>
              exfalso
              apply hf
              constructor
              · simpa [List.getD] using h2
              · rw [headD_eq_getD]; exact h3
          | succ i' =>
              refine ⟨i', Nat.lt_of_succ_lt_succ h1, h2, ?_⟩
              rw [getD_tail]; exact h3

/-! ### Flatten helpers -/

theorem flatten_all_nil {α : Type} {L : List (List α)} (h : ∀ l ∈ L, l = []) :
    L.flatten = [] := by
  induction L with
  | nil => rfl
  | cons l t ih =>
      have hl : l = [] := h l (List.mem_cons_self ..)
      rw [List.flatten_cons, hl, List.nil_append]
      exact ih fun x hx => h x (List.mem_cons_of_mem _ hx)

theorem flatten_set_append {α : Type} {L : List (List α)} {i : Nat} (x : α)
    (h : i < L.length) :
    (L.set i (L.getD i [] ++ [x])).flatten.Perm (L.flatten ++ [x]) := by
  induction L generalizing i with
  | nil => simp at h
  | cons l t ih =>
      cases i with
      | zero =>
          simp only [List.set_cons_zero, List.flatten_cons, List.getD_cons_zero]
          have h1 : (l ++ [x]) ++ t.flatten = l ++ ([x] ++ t.flatten) := by
            simp [List.append_assoc]
          have h2 : (l ++ t.flatten) ++ [x] = l ++ (t.flatten ++ [x]) := by
            simp [List.append_assoc]
          rw [h1, h2]
          exact List.Perm.append_left l List.perm_append_comm
      | succ i' =>
          simp only [List.set_cons_succ, List.flatten_cons, List.getD_cons_succ]
          have hp := ih (Nat.lt_of_succ_lt_succ h)
          have h2 : (l ++ t.flatten) ++ [x] = l ++ (t.flatten ++ [x]) := by
            simp [List.append_assoc]
          rw [h2]
          exact List.Perm.append_left l hp

theorem mem_flatten_getD {α : Type} {L : List (List α)} {a : α} :
    a ∈ L.flatten ↔ ∃ i, i < L.length ∧ a ∈ L.getD i [] := by
  rw [List.mem_flatten]
  constructor
  · rintro ⟨l, hl, ha⟩
    obtain ⟨i, hi, rfl⟩ := List.getElem_of_mem hl
    exact ⟨i, hi, by rwa [getD_of_lt _ _ hi]⟩
  · rintro ⟨i, hi, ha⟩
    exact ⟨L.getD i [], getD_mem _ _ hi, ha⟩

theorem foldl_append_eq {α : Type} (L : List (List α)) (acc : List α) :
    L.foldl (fun r l => r ++ l) acc = acc ++ L.flatten := by
  induction L generalizing acc with
  | nil => simp
  | cons l t ih => simp [ih, List.append_assoc]

/-- `Keys` produces the concatenation, over buckets in index order, of the
member lists. -/
theorem Keys_eq_flatten (s : GoSet) : s.Keys = s.keys.flatten := by
  rw [GoSet.Keys, foldl_append_eq, List.nil_append]

/-! ### Structural invariant: the slack of the member-list slice is empty -/

/-- Structural well-formedness of a `GoSet` value: there are at least as
many visible member-list slots as filters, and every slot at or beyond the
filter count — including the spare capacity — is an empty list. Every
state reachable from the zero value satisfies this. -/
def Tidy (s : GoSet) : Prop :=
  s.filters.length ≤ s.keys.length ∧
  (∀ l ∈ s.keys.drop s.filters.length, l = ([] : List Nat)) ∧
  (∀ l ∈ s.spare, l = ([] : List Nat))

instance (s : GoSet) : Decidable (Tidy s) :=
  decidable_of_iff (s.filters.length ≤ s.keys.length ∧
    (∀ l ∈ s.keys.drop s.filters.length, l = ([] : List Nat)) ∧
    (∀ l ∈ s.spare, l = ([] : List Nat))) Iff.rfl

theorem all_nil_getD {xs : List (List Nat)} (h : ∀ l ∈ xs, l = ([] : List Nat))
    (j : Nat) : xs.getD j [] = [] := by
  rcases Nat.lt_or_ge j xs.length with hlt | hge
  · exact h _ (getD_mem xs [] hlt)
  · exact getD_of_ge xs [] hge

theorem all_nil_drop {X : List (List Nat)} {n : Nat}
    (h : ∀ j, n ≤ j → X.getD j [] = []) :
    ∀ l ∈ X.drop n, l = ([] : List Nat) := by
  intro l hl
  obtain ⟨j, hj, rfl⟩ := List.getElem_of_mem hl
  rw [← getD_of_lt _ ([] : List Nat) hj, getD_drop]
  exact h _ (Nat.le_add_right _ _)

theorem tidy_getD_keys {s : GoSet} (ht : Tidy s) {j : Nat}
    (hj : s.filters.length ≤ j) : s.keys.getD j [] = [] := by
  have h := all_nil_getD ht.2.1 (j - s.filters.length)
  rwa [getD_drop, Nat.add_sub_cancel' hj] at h

theorem backing_getD_ge {s : GoSet} (ht : Tidy s) {m : Nat}
    (hm : s.filters.length ≤ m) : (s.keys ++ s.spare).getD m [] = [] := by
  rcases Nat.lt_or_ge m s.keys.length with h | h
  · rw [getD_append_lt _ _ _ h]; exact tidy_getD_keys ht hm
  · rw [getD_append_ge _ _ _ h]; exact all_nil_getD ht.2.2 _

theorem newSlots_length {s : GoSet} (ht : Tidy s) :
    (newSlots s).length = s.filters.length + 1 := by
  have h1 := ht.1
  by_cases hc : s.filters.length < s.keys.length + s.spare.length
  · rw [newSlots, if_pos hc]
    simp only [List.length_take, List.length_append]
    omega
  · rw [newSlots, if_neg hc]
    simp only [List.length_append, List.length_cons, List.length_nil]
    omega

theorem newSlots_getD_lt {s : GoSet} (ht : Tidy s) {i : Nat}
    (hi : i < s.filters.length) : (newSlots s).getD i [] = s.keys.getD i [] := by
  have hik : i < s.keys.length := Nat.lt_of_lt_of_le hi ht.1
  by_cases hc : s.filters.length < s.keys.length + s.spare.length
  · rw [newSlots, if_pos hc, getD_take _ _ (by omega), getD_append_lt _ _ _ hik]
  · rw [newSlots, if_neg hc, getD_append_lt _ _ _ hik]

theorem newSlots_getD_self {s : GoSet} (ht : Tidy s) :
    (newSlots s).getD s.filters.length [] = [] := by
  by_cases hc : s.filters.length < s.keys.length + s.spare.length
  · rw [newSlots, if_pos hc, getD_take _ _ (Nat.lt_succ_self _)]
    exact backing_getD_ge ht (Nat.le_refl _)
  · have h1 : s.keys.length ≤ s.filters.length := by omega
    rw [newSlots, if_neg hc, getD_append_ge _ _ _ h1]
    have h2 : s.filters.length - s.keys.length = 0 := by
      have := ht.1; omega
    rw [h2]
    rfl

theorem newSlots_getD_ge {s : GoSet} (ht : Tidy s) {j : Nat}
    (hj : s.filters.length ≤ j) : (newSlots s).getD j [] = [] := by
  rcases Nat.eq_or_lt_of_le hj with h | h
  · rw [← h]; exact newSlots_getD_self ht
  · exact getD_of_ge _ _ (by rw [newSlots_length ht]; omega)

theorem newSpare_all_nil {s : GoSet} (ht : Tidy s) :
    ∀ l ∈ newSpare s, l = ([] : List Nat) := by
  intro l hl
  by_cases hc : s.filters.length < s.keys.length + s.spare.length
  · rw [newSpare, if_pos hc] at hl
    obtain ⟨j, hj, rfl⟩ := List.getElem_of_mem hl
    rw [← getD_of_lt _ ([] : List Nat) hj, getD_drop]
    exact backing_getD_ge ht (by omega)
  · rw [newSpare, if_neg hc] at hl
    exact ht.2.2 l hl

theorem getElem?_eq_getD {α : Type} (l : List α) {i : Nat} (d : α)
    (h : i < l.length) : l[i]? = some (l.getD i d) := by
  rw [getD_of_lt l d h, List.getElem?_eq_getElem h]

theorem take_eq_of_getD {α : Type} {A B : List α} {n : Nat} (d : α)
    (hA : n ≤ A.length) (hB : n ≤ B.length)
    (h : ∀ i, i < n → A.getD i d = B.getD i d) : A.take n = B.take n := by
  apply List.ext_getElem?
  intro i
  rw [List.getElem?_take, List.getElem?_take]
  by_cases hi : i < n
  · rw [if_pos hi, if_pos hi, getElem?_eq_getD A d (Nat.lt_of_lt_of_le hi hA),
        getElem?_eq_getD B d (Nat.lt_of_lt_of_le hi hB), h i hi]
  · rw [if_neg hi, if_neg hi]

theorem flatten_eq_take {α : Type} {L : List (List α)} {n : Nat}
    (h : ∀ l ∈ L.drop n, l = ([] : List α)) :
    L.flatten = (L.take n).flatten := by
  conv_lhs => rw [← List.take_append_drop n L]
  rw [List.flatten_append, flatten_all_nil h, List.append_nil]

theorem newSlots_flatten {s : GoSet} (ht : Tidy s) :
    (newSlots s).flatten = s.keys.flatten := by
  rw [flatten_eq_take (n := s.filters.length)
        (all_nil_drop fun j hj => newSlots_getD_ge ht hj),
      flatten_eq_take (n := s.filters.length)
        (all_nil_drop fun j hj => tidy_getD_keys ht hj)]
  congr 1
  exact take_eq_of_getD ([] : List Nat)
    (by rw [newSlots_length ht]; omega) ht.1
    (fun i hi => newSlots_getD_lt ht hi)

/-! ### The four branches of Add -/

theorem Add_found {s : GoSet} {key i : Nat}
    (hm : firstMatch (filter key) s.filters = some i)
    (hk : key ∈ s.keys.getD i []) : s.Add key = (false, s) := by
  simp only [GoSet.Add, hm, if_pos hk]

theorem Add_append {s : GoSet} {key i : Nat}
    (hm : firstMatch (filter key) s.filters = some i)
    (hk : key ∉ s.keys.getD i []) :
    s.Add key =
      (true, { s with keys := s.keys.set i (s.keys.getD i [] ++ [key]) }) := by
  simp only [GoSet.Add, hm, if_neg hk]

theorem Add_orLast {s : GoSet} {key : Nat}
    (hm : firstMatch (filter key) s.filters = none)
    (hcond : 0 < s.filters.length ∧
      minDiff ≤ popCount (andNot (filter key)
        (s.filters.getD (s.filters.length - 1) 0))) :
    s.Add key = (true, { s with
      filters := s.filters.set (s.filters.length - 1)
        (s.filters.getD (s.filters.length - 1) 0 ||| filter key),
      keys := s.keys.set (s.filters.length - 1)
        (s.keys.getD (s.filters.length - 1) [] ++ [key]) }) := by
  simp only [GoSet.Add, hm, if_pos hcond]

theorem Add_newBucket {s : GoSet} {key : Nat}
    (hm : firstMatch (filter key) s.filters = none)
    (hcond : ¬(0 < s.filters.length ∧
      minDiff ≤ popCount (andNot (filter key)
        (s.filters.getD (s.filters.length - 1) 0)))) :
    s.Add key = (true, { filters := s.filters ++ [filter key],
                         keys := (newSlots s).set s.filters.length
                           ((newSlots s).getD s.filters.length [] ++ [key]),
                         spare := newSpare s }) := by
  simp only [GoSet.Add, hm, if_neg hcond]

/-- `Add` preserves structural well-formedness. -/
theorem tidy_add {s : GoSet} (ht : Tidy s) (key : Nat) : Tidy (s.Add key).2 := by
  cases hm : firstMatch (filter key) s.filters with
  | some i =>
      have hi := (firstMatch_eq_some hm).1
      by_cases hk : key ∈ s.keys.getD i []
      · rw [Add_found hm hk]; exact ht
      · rw [Add_append hm hk]
        refine ⟨by simpa using ht.1, ?_, ht.2.2⟩
        apply all_nil_drop
        intro j hj
        have hj' : s.filters.length ≤ j := hj
        show (s.keys.set i (s.keys.getD i [] ++ [key])).getD j [] = []
        rw [getD_set_ne _ _ _ (by omega)]
        exact tidy_getD_keys ht hj'
  | none =>
      by_cases hcond : 0 < s.filters.length ∧
          minDiff ≤ popCount (andNot (filter key)
            (s.filters.getD (s.filters.length - 1) 0))
      · rw [Add_orLast hm hcond]
        have h0 := hcond.1
        refine ⟨?_, ?_, ht.2.2⟩
        · show (s.filters.set (s.filters.length - 1) _).length ≤
            (s.keys.set (s.filters.length - 1) _).length
          rw [List.length_set, List.length_set]
          exact ht.1
        · apply all_nil_drop
          intro j hj
          have hj0 : (s.filters.set (s.filters.length - 1)
              (s.filters.getD (s.filters.length - 1) 0 ||| filter key)).length ≤ j := hj
          rw [List.length_set] at hj0
          show (s.keys.set (s.filters.length - 1)
            (s.keys.getD (s.filters.length - 1) [] ++ [key])).getD j [] = []
          rw [getD_set_ne _ _ _ (by omega)]
          exact tidy_getD_keys ht hj0
      · rw [Add_newBucket hm hcond]
        refine ⟨?_, ?_, newSpare_all_nil ht⟩
        · show (s.filters ++ [filter key]).length ≤
            ((newSlots s).set s.filters.length _).length
          rw [List.length_set, List.length_append, newSlots_length ht]
          simp
        · apply all_nil_drop
          intro j hj
          have hj0 : (s.filters ++ [filter key]).length ≤ j := hj
          rw [List.length_append] at hj0
          simp only [List.length_cons, List.length_nil] at hj0
          show ((newSlots s).set s.filters.length
            ((newSlots s).getD s.filters.length [] ++ [key])).getD j [] = []
          rw [getD_set_ne _ _ _ (by omega)]
          exact getD_of_ge _ _ (by rw [newSlots_length ht]; omega)

/-- `Reset` establishes structural well-formedness from the spare clause
alone. -/
theorem tidy_reset {s : GoSet} (hsp : ∀ l ∈ s.spare, l = ([] : List Nat)) :
    Tidy s.Reset := by
  refine ⟨Nat.zero_le _, ?_, hsp⟩
  intro l hl
  simp only [GoSet.Reset, List.length_nil, List.drop_zero] at hl
  obtain ⟨a, _, rfl⟩ := List.mem_map.mp hl
  rfl

/-! ### The bucket invariants -/

/-- Invariant B of the spec: bucket `i`'s filter covers the scrambled bits
of every key stored in bucket `i`. -/
def Covers (s : GoSet) : Prop :=
  ∀ i, i < s.filters.length → ∀ k ∈ s.keys.getD i [],
    s.filters.getD i 0 &&& filter k = filter k

/-- No earlier bucket's filter covers a key stored in a strictly later
bucket. Filters widen only while their bucket is last, so a filter left of
a key's bucket can never come to cover that key. -/
def FrontMiss (s : GoSet) : Prop :=
  ∀ i j, i < j → j < s.filters.length → ∀ k ∈ s.keys.getD j [],
    ¬(s.filters.getD i 0 &&& filter k = filter k)

/-- Full invariant of reachable `GoSet` states. -/
def SetInv (s : GoSet) : Prop :=
  Tidy s ∧ Covers s ∧ FrontMiss s ∧ s.keys.flatten.Nodup

/-- States reachable from the zero `Set` by `Add` and `Reset`. -/
inductive Reach : GoSet → Prop
  | empty : Reach emptySet
  | add (s : GoSet) (key : Nat) : Reach s → Reach (s.Add key).2
  | reset (s : GoSet) : Reach s → Reach s.Reset

theorem mem_flatten_bucket {s : GoSet} (ht : Tidy s) {key : Nat} :
    key ∈ s.keys.flatten ↔
      ∃ i, i < s.filters.length ∧ key ∈ s.keys.getD i [] := by
  rw [mem_flatten_getD]
  constructor
  · rintro ⟨i, hi, hk⟩
    rcases Nat.lt_or_ge i s.filters.length with h | h
    · exact ⟨i, h, hk⟩
    · rw [tidy_getD_keys ht h] at hk
      cases hk
  · rintro ⟨i, hi, hk⟩
    exact ⟨i, Nat.lt_of_lt_of_le hi ht.1, hk⟩

/-- `Contains` answers exactly membership in the flattened member lists. -/
theorem contains_iff_mem {s : GoSet} (h : SetInv s) (key : Nat) :
    s.Contains key = true ↔ key ∈ s.keys.flatten := by
  rw [GoSet.Contains, containsFrom_eq_true, mem_flatten_bucket h.1]
  constructor
  · rintro ⟨i, hi, _, hk⟩
    exact ⟨i, hi, hk⟩
  · rintro ⟨i, hi, hk⟩
    exact ⟨i, hi, h.2.1 i hi key hk, hk⟩

/-- A key missed by every filter is absent from the set. -/
theorem not_mem_of_no_match {s : GoSet} (h : SetInv s) {key : Nat}
    (hnone : ∀ f ∈ s.filters, ¬(f &&& filter key = filter key)) :
    key ∉ s.keys.flatten := by
  intro hmem
  obtain ⟨j, hj, hk⟩ := (mem_flatten_bucket h.1).mp hmem
  exact hnone _ (getD_mem s.filters 0 hj) (h.2.1 j hj key hk)

/-- If the first matching bucket does not hold the key then no bucket
does: buckets left of the first match miss by minimality, buckets right of
it miss by `FrontMiss`. -/
theorem not_mem_of_first_miss {s : GoSet} (h : SetInv s) {key i : Nat}
    (hm : firstMatch (filter key) s.filters = some i)
    (hk : key ∉ s.keys.getD i []) : key ∉ s.keys.flatten := by
  obtain ⟨hi, hmatch, hmin⟩ := firstMatch_eq_some hm
  intro hmem
  obtain ⟨j, hj, hkj⟩ := (mem_flatten_bucket h.1).mp hmem
  rcases Nat.lt_trichotomy j i with hlt | heq | hgt
  · exact hmin j hlt (h.2.1 j hj key hkj)
  · subst heq
    exact hk hkj
  · exact h.2.2.1 i j hgt hj key hkj hmatch

theorem nodup_append_singleton {l : List Nat} {x : Nat} (hnd : l.Nodup)
    (hx : x ∉ l) : (l ++ [x]).Nodup := by
  rw [List.nodup_append]
  refine ⟨hnd, List.nodup_singleton x, ?_⟩
  intro a ha hax
  rw [List.mem_singleton] at hax
  exact hx (hax ▸ ha)

/-- Full specification of one `Add` call from an invariant state: the
invariant is preserved; the call returns `false` exactly when the key is
already present; a `false` return leaves the state untouched; a `true`
return adds exactly one copy of the key to the stored members. -/
theorem add_spec {s : GoSet} (h : SetInv s) (key : Nat) :
    SetInv (s.Add key).2 ∧
    ((s.Add key).1 = false ↔ key ∈ s.keys.flatten) ∧
    ((s.Add key).1 = false → (s.Add key).2 = s) ∧
    ((s.Add key).1 = true →
      ((s.Add key).2).keys.flatten.Perm (s.keys.flatten ++ [key])) := by
  obtain ⟨ht, hcov, hfr, hnd⟩ := h
  have ht' := tidy_add ht key
  cases hm : firstMatch (filter key) s.filters with
  | some i =>
      obtain ⟨hi, hmatch, hmin⟩ := firstMatch_eq_some hm
      by_cases hk : key ∈ s.keys.getD i []
      · rw [Add_found hm hk] at ht' ⊢
        have hmem : key ∈ s.keys.flatten :=
          (mem_flatten_bucket ht).mpr ⟨i, hi, hk⟩
        exact ⟨⟨ht, hcov, hfr, hnd⟩, by simp [hmem], fun _ => rfl, by simp⟩
      · have hnotmem := not_mem_of_first_miss ⟨ht, hcov, hfr, hnd⟩ hm hk
        rw [Add_append hm hk] at ht' ⊢
        have hik : i < s.keys.length := Nat.lt_of_lt_of_le hi ht.1
        have hperm := flatten_set_append key hik
        refine ⟨⟨ht', ?_, ?_,
            hperm.symm.nodup (nodup_append_singleton hnd hnotmem)⟩,
          by simp [hnotmem], by simp, fun _ => hperm⟩
        · intro i' hi' k hkmem
          have hi'0 : i' < s.filters.length := hi'
          have hkmem' :
              k ∈ (s.keys.set i (s.keys.getD i [] ++ [key])).getD i' [] := hkmem
          show s.filters.getD i' 0 &&& filter k = filter k
          rcases eq_or_ne i i' with rfl | hne
          · rw [getD_set_self _ _ _ hik] at hkmem'
            rcases List.mem_append.mp hkmem' with hold | hnew
            · exact hcov i hi'0 k hold
            · rw [List.mem_singleton] at hnew
              subst hnew
              exact hmatch
          · rw [getD_set_ne _ _ _ hne] at hkmem'
            exact hcov i' hi'0 k hkmem'
        · intro i' j' hij hj' k hkmem
          have hj'0 : j' < s.filters.length := hj'
          have hkmem' :
              k ∈ (s.keys.set i (s.keys.getD i [] ++ [key])).getD j' [] := hkmem
          show ¬(s.filters.getD i' 0 &&& filter k = filter k)
          rcases eq_or_ne i j' with rfl | hne
          · rw [getD_set_self _ _ _ hik] at hkmem'
            rcases List.mem_append.mp hkmem' with hold | hnew
            · exact hfr i' i hij hj'0 k hold
            · rw [List.mem_singleton] at hnew
              subst hnew
              exact hmin i' hij
          · rw [getD_set_ne _ _ _ hne] at hkmem'
            exact hfr i' j' hij hj'0 k hkmem'
  | none =>
      have hnone := firstMatch_eq_none.mp hm
      have hnotmem : key ∉ s.keys.flatten :=
        not_mem_of_no_match ⟨ht, hcov, hfr, hnd⟩ hnone
      by_cases hcond : 0 < s.filters.length ∧
          minDiff ≤ popCount (andNot (filter key)
            (s.filters.getD (s.filters.length - 1) 0))
      · rw [Add_orLast hm hcond] at ht' ⊢
        have h0 := hcond.1
        have hlast : s.filters.length - 1 < s.keys.length := by
          have := ht.1; omega
        have hperm := flatten_set_append key hlast
        refine ⟨⟨ht', ?_, ?_,
            hperm.symm.nodup (nodup_append_singleton hnd hnotmem)⟩,
          by simp [hnotmem], by simp, fun _ => hperm⟩
        · intro i' hi' k hkmem
          have hi'0 : i' < (s.filters.set (s.filters.length - 1)
              (s.filters.getD (s.filters.length - 1) 0 ||| filter key)).length :=
            hi'
          rw [List.length_set] at hi'0
          have hkmem' : k ∈ (s.keys.set (s.filters.length - 1)
              (s.keys.getD (s.filters.length - 1) [] ++ [key])).getD i' [] :=
            hkmem
          show (s.filters.set (s.filters.length - 1)
              (s.filters.getD (s.filters.length - 1) 0 ||| filter key)).getD
                i' 0 &&& filter k = filter k
          rcases eq_or_ne (s.filters.length - 1) i' with heq | hne
          · rw [← heq] at hkmem' ⊢
            rw [getD_set_self _ _ _ hlast] at hkmem'
            rw [getD_set_self _ _ _ (by omega)]
            rcases List.mem_append.mp hkmem' with hold | hnew
            · exact land_lor_left (hcov _ (by omega) k hold)
            · rw [List.mem_singleton] at hnew
              subst hnew
              exact lor_land_self _ _
          · rw [getD_set_ne _ _ _ hne] at hkmem'
            rw [getD_set_ne _ _ _ hne]
            exact hcov i' hi'0 k hkmem'
        · intro i' j' hij hj' k hkmem
          have hj'0 : j' < (s.filters.set (s.filters.length - 1)
              (s.filters.getD (s.filters.length - 1) 0 ||| filter key)).length :=
            hj'
          rw [List.length_set] at hj'0
          have hkmem' : k ∈ (s.keys.set (s.filters.length - 1)
              (s.keys.getD (s.filters.length - 1) [] ++ [key])).getD j' [] :=
            hkmem
          show ¬((s.filters.set (s.filters.length - 1)
              (s.filters.getD (s.filters.length - 1) 0 ||| filter key)).getD
                i' 0 &&& filter k = filter k)
          have hi'ne : (s.filters.length - 1) ≠ i' := by omega
          rw [getD_set_ne _ _ _ hi'ne]
          rcases eq_or_ne (s.filters.length - 1) j' with heq | hne
          · rw [← heq] at hkmem'
            rw [getD_set_self _ _ _ hlast] at hkmem'
            rcases List.mem_append.mp hkmem' with hold | hnew
            · exact hfr i' _ (by omega) (by omega) k hold
            · rw [List.mem_singleton] at hnew
              subst hnew
              exact hnone _ (getD_mem s.filters 0 (by omega))
          · rw [getD_set_ne _ _ _ hne] at hkmem'
            exact hfr i' j' hij hj'0 k hkmem'
      · rw [Add_newBucket hm hcond] at ht' ⊢
        have hn1 : s.filters.length < (newSlots s).length := by
          rw [newSlots_length ht]
          omega
        have hperm := flatten_set_append key hn1
        rw [newSlots_flatten ht] at hperm
        refine ⟨⟨ht', ?_, ?_,
            hperm.symm.nodup (nodup_append_singleton hnd hnotmem)⟩,
          by simp [hnotmem], by simp, fun _ => hperm⟩
        · intro i' hi' k hkmem
          have hi'0 : i' < s.filters.length + 1 := by
            have h1 : i' < (s.filters ++ [filter key]).length := hi'
            simpa using h1
          have hkmem' : k ∈ ((newSlots s).set s.filters.length
              ((newSlots s).getD s.filters.length [] ++ [key])).getD i' [] :=
            hkmem
          show (s.filters ++ [filter key]).getD i' 0 &&& filter k = filter k
          rcases eq_or_ne s.filters.length i' with heq | hne
          · rw [← heq] at hkmem' ⊢
            rw [getD_set_self _ _ _ hn1, newSlots_getD_self ht,
              List.nil_append, List.mem_singleton] at hkmem'
            subst hkmem'
            rw [getD_append_ge _ _ _ (Nat.le_refl _), Nat.sub_self,
              List.getD_cons_zero]
            exact Nat.and_self _
          · have hi'lt : i' < s.filters.length := by omega
            rw [getD_set_ne _ _ _ hne, newSlots_getD_lt ht hi'lt] at hkmem'
            rw [getD_append_lt _ _ _ hi'lt]
            exact hcov i' hi'lt k hkmem'
        · intro i' j' hij hj' k hkmem
          have hj'0 : j' < s.filters.length + 1 := by
            have h1 : j' < (s.filters ++ [filter key]).length := hj'
            simpa using h1
          have hkmem' : k ∈ ((newSlots s).set s.filters.length
              ((newSlots s).getD s.filters.length [] ++ [key])).getD j' [] :=
            hkmem
          have hi'lt : i' < s.filters.length := by omega
          show ¬((s.filters ++ [filter key]).getD i' 0 &&& filter k = filter k)
          rw [getD_append_lt _ _ _ hi'lt]
          rcases eq_or_ne s.filters.length j' with heq | hne
          · rw [← heq] at hkmem'
            rw [getD_set_self _ _ _ hn1, newSlots_getD_self ht,
              List.nil_append, List.mem_singleton] at hkmem'
            subst hkmem'
            exact hnone _ (getD_mem s.filters 0 hi'lt)
          · have hj'lt : j' < s.filters.length := by omega
            rw [getD_set_ne _ _ _ hne, newSlots_getD_lt ht hj'lt] at hkmem'
            exact hfr i' j' hij hj'lt k hkmem'

theorem setInv_empty : SetInv emptySet := by
  refine ⟨⟨Nat.le_refl _, ?_, ?_⟩, ?_, ?_, List.nodup_nil⟩
  · intro l hl
    cases hl
  · intro l hl
    cases hl
  · intro i hi
    exact absurd (show i < 0 from hi) (Nat.not_lt_zero i)
  · intro i j _ hj
    exact absurd (show j < 0 from hj) (Nat.not_lt_zero j)

theorem setInv_reset {s : GoSet} (h : SetInv s) : SetInv s.Reset := by
  refine ⟨tidy_reset h.1.2.2, ?_, ?_, ?_⟩
  · intro i hi
    exact absurd (show i < 0 from hi) (Nat.not_lt_zero i)
  · intro i j _ hj
    exact absurd (show j < 0 from hj) (Nat.not_lt_zero j)
  · show ((s.keys.map fun _ => []).flatten).Nodup
    rw [flatten_all_nil ?h]
    case h =>
      intro l hl
      obtain ⟨a, _, hal⟩ := List.mem_map.mp hl
      exact hal.symm
    exact List.nodup_nil

/-- Every reachable state satisfies the full invariant. -/
theorem reach_inv {s : GoSet} (h : Reach s) : SetInv s := by
  induction h with
  | empty => exact setInv_empty
  | add s key _ ih => exact (add_spec ih key).1
  | reset s _ ih => exact setInv_reset ih

/-- Membership after one `Add`. -/
theorem add_mem_flatten {s : GoSet} (h : SetInv s) (key k : Nat) :
    k ∈ ((s.Add key).2).keys.flatten ↔ k ∈ s.keys.flatten ∨ k = key := by
  cases hb : (s.Add key).1 with
  | false =>
      rw [(add_spec h key).2.2.1 hb]
      have hmem := ((add_spec h key).2.1).mp hb
      constructor
      · exact fun hk => Or.inl hk
      · rintro (hk | rfl)
        · exact hk
        · exact hmem
  | true =>
      rw [((add_spec h key).2.2.2 hb).mem_iff]
      simp [List.mem_append]

theorem addAll_cons (s : GoSet) (a : Nat) (t : List Nat) :
    addAll s (a :: t) = addAll (s.Add a).2 t := rfl

theorem addAll_inv {s : GoSet} (h : SetInv s) (ks : List Nat) :
    SetInv (addAll s ks) := by
  induction ks generalizing s with
  | nil => exact h
  | cons a t ih =>
      rw [addAll_cons]
      exact ih (add_spec h a).1

/-- Membership after a whole sequence of `Add`s. -/
theorem addAll_mem {s : GoSet} (h : SetInv s) (ks : List Nat) (k : Nat) :
    k ∈ (addAll s ks).keys.flatten ↔ k ∈ s.keys.flatten ∨ k ∈ ks := by
  induction ks generalizing s with
  | nil => simp [addAll]
  | cons a t ih =>
      rw [addAll_cons, ih (add_spec h a).1, add_mem_flatten h a k]
      constructor
      · rintro ((hk | rfl) | hk)
        · exact Or.inl hk
        · exact Or.inr (List.mem_cons_self ..)
        · exact Or.inr (List.mem_cons_of_mem _ hk)
      · rintro (hk | hk)
        · exact Or.inl (Or.inl hk)
        · rcases List.mem_cons.mp hk with rfl | hk
          · exact Or.inl (Or.inr rfl)
          · exact Or.inr hk

/-- Adding distinct fresh keys appends exactly those keys, up to order. -/
theorem addAll_perm {s : GoSet} (h : SetInv s) (ks : List Nat)
    (hnd : ks.Nodup) (hdisj : ∀ k ∈ ks, k ∉ s.keys.flatten) :
    ((addAll s ks).keys.flatten).Perm (s.keys.flatten ++ ks) := by
  induction ks generalizing s with
  | nil => simp [addAll]
  | cons a t ih =>
      rw [addAll_cons]
      have ha : a ∉ s.keys.flatten := hdisj a (List.mem_cons_self ..)
      have hfst : (s.Add a).1 = true := by
        cases hb : (s.Add a).1 with
        | false => exact absurd ((add_spec h a).2.1.mp hb) ha
        | true => rfl
      have hperm := (add_spec h a).2.2.2 hfst
      have h' := (add_spec h a).1
      have hna := (List.nodup_cons.mp hnd).1
      have hnd' := (List.nodup_cons.mp hnd).2
      have hdisj' : ∀ k ∈ t, k ∉ ((s.Add a).2).keys.flatten := by
        intro k hk hmem
        rw [hperm.mem_iff, List.mem_append, List.mem_singleton] at hmem
        rcases hmem with hm1 | rfl
        · exact hdisj k (List.mem_cons_of_mem _ hk) hm1
        · exact hna hk
      have hih := ih h' hnd' hdisj'
      have h2 : (((s.Add a).2).keys.flatten ++ t).Perm
          ((s.keys.flatten ++ [a]) ++ t) := hperm.append_right t
      have h3 : (s.keys.flatten ++ [a]) ++ t = s.keys.flatten ++ (a :: t) := by
        rw [List.append_assoc]
        rfl
      exact h3 ▸ (hih.trans h2)

/-! ### Observational equivalence of Reset with the zero value -/

/-- One operation of the `Set` API. -/
inductive SOp where
  | add (key : Nat)
  | contains (key : Nat)
  | keys
  | reset
deriving Repr, DecidableEq

/-- One return value of a `Set` operation. -/
inductive Obs where
  | flag (b : Bool)
  | list (l : List Nat)
deriving Repr, DecidableEq

/-- Run a sequence of operations, collecting every return value. -/
def trace : List SOp → GoSet → List Obs
  | [], _ => []
  | SOp.add k :: ops, s => Obs.flag (s.Add k).1 :: trace ops (s.Add k).2
  | SOp.contains k :: ops, s => Obs.flag (s.Contains k) :: trace ops s
  | SOp.keys :: ops, s => Obs.list s.Keys :: trace ops s
  | SOp.reset :: ops, s => trace ops s.Reset

/-- Bisimulation relation: equal filters, equal member lists on the live
slots, and tidy slack on both sides. The slack (trailing empty slots and
spare capacity) is exactly what may differ between a reset set and a fresh
one. -/
def SimR (s t : GoSet) : Prop :=
  s.filters = t.filters ∧
  (∀ i, i < s.filters.length → s.keys.getD i [] = t.keys.getD i []) ∧
  Tidy s ∧ Tidy t

theorem bool_eq_of_iff {a b : Bool} (h : a = true ↔ b = true) : a = b := by
  cases a <;> cases b <;> simp_all

theorem SimR.contains_eq {s t : GoSet} (h : SimR s t) (k : Nat) :
    s.Contains k = t.Contains k := by
  apply bool_eq_of_iff
  rw [GoSet.Contains, GoSet.Contains, containsFrom_eq_true,
    containsFrom_eq_true, ← h.1]
  constructor
  · rintro ⟨i, hi, hmatch, hk⟩
    refine ⟨i, hi, hmatch, ?_⟩
    rw [← h.2.1 i hi]
    exact hk
  · rintro ⟨i, hi, hmatch, hk⟩
    refine ⟨i, hi, hmatch, ?_⟩
    rw [h.2.1 i hi]
    exact hk

theorem SimR.keys_eq {s t : GoSet} (h : SimR s t) : s.Keys = t.Keys := by
  have hlen : s.filters.length = t.filters.length := by rw [h.1]
  rw [Keys_eq_flatten, Keys_eq_flatten,
    flatten_eq_take (n := s.filters.length)
      (all_nil_drop fun j hj => tidy_getD_keys h.2.2.1 hj),
    flatten_eq_take (n := s.filters.length)
      (all_nil_drop fun j hj => tidy_getD_keys h.2.2.2 (hlen ▸ hj))]
  congr 1
  exact take_eq_of_getD ([] : List Nat) h.2.2.1.1
    (by rw [hlen]; exact h.2.2.2.1) h.2.1

theorem SimR.add_sim {s t : GoSet} (h : SimR s t) (key : Nat) :
    (s.Add key).1 = (t.Add key).1 ∧ SimR (s.Add key).2 (t.Add key).2 := by
  obtain ⟨hf, hkeys, hts, htt⟩ := h
  have hts' := tidy_add hts key
  have htt' := tidy_add htt key
  have hlen : s.filters.length = t.filters.length := by rw [hf]
  cases hm : firstMatch (filter key) s.filters with
  | some i =>
      have hm' : firstMatch (filter key) t.filters = some i := by
        rw [← hf]; exact hm
      have hi := (firstMatch_eq_some hm).1
      have hkey_eq := hkeys i hi
      by_cases hk : key ∈ s.keys.getD i []
      · have hk' : key ∈ t.keys.getD i [] := hkey_eq ▸ hk
        rw [Add_found hm hk, Add_found hm' hk']
        exact ⟨rfl, hf, hkeys, hts, htt⟩
      · have hk' : key ∉ t.keys.getD i [] := fun hx => hk (hkey_eq.symm ▸ hx)
        rw [Add_append hm hk, Add_append hm' hk']
        rw [Add_append hm hk] at hts'
        rw [Add_append hm' hk'] at htt'
        refine ⟨rfl, hf, ?_, hts', htt'⟩
        intro i' hi'
        have hi'0 : i' < s.filters.length := hi'
        show (s.keys.set i (s.keys.getD i [] ++ [key])).getD i' [] =
          (t.keys.set i (t.keys.getD i [] ++ [key])).getD i' []
        rcases eq_or_ne i i' with rfl | hne
        · rw [getD_set_self _ _ _ (Nat.lt_of_lt_of_le hi hts.1),
            getD_set_self _ _ _ (Nat.lt_of_lt_of_le (hlen ▸ hi) htt.1),
            hkey_eq]
        · rw [getD_set_ne _ _ _ hne, getD_set_ne _ _ _ hne]
          exact hkeys i' hi'0
  | none =>
      have hm' : firstMatch (filter key) t.filters = none := by
        rw [← hf]; exact hm
      by_cases hcond : 0 < s.filters.length ∧
          minDiff ≤ popCount (andNot (filter key)
            (s.filters.getD (s.filters.length - 1) 0))
      · have hcond' : 0 < t.filters.length ∧
            minDiff ≤ popCount (andNot (filter key)
              (t.filters.getD (t.filters.length - 1) 0)) := by
          rw [← hf]; exact hcond
        rw [Add_orLast hm hcond, Add_orLast hm' hcond']
        rw [Add_orLast hm hcond] at hts'
        rw [Add_orLast hm' hcond'] at htt'
        refine ⟨rfl, ?_, ?_, hts', htt'⟩
        · show s.filters.set (s.filters.length - 1)
              (s.filters.getD (s.filters.length - 1) 0 ||| filter key) =
            t.filters.set (t.filters.length - 1)
              (t.filters.getD (t.filters.length - 1) 0 ||| filter key)
          rw [hf]
        · intro i' hi'
          have h1 : i' < (s.filters.set (s.filters.length - 1)
              (s.filters.getD (s.filters.length - 1) 0 ||| filter key)).length :=
            hi'
          rw [List.length_set] at h1
          have h0 : 0 < s.filters.length := hcond.1
          show (s.keys.set (s.filters.length - 1)
              (s.keys.getD (s.filters.length - 1) [] ++ [key])).getD i' [] =
            (t.keys.set (t.filters.length - 1)
              (t.keys.getD (t.filters.length - 1) [] ++ [key])).getD i' []
          rw [← hlen]
          rcases eq_or_ne (s.filters.length - 1) i' with heq | hne
          · rw [← heq,
              getD_set_self _ _ _ (by have := hts.1; omega),
              getD_set_self _ _ _ (by have := htt.1; omega),
              hkeys _ (by omega)]
          · rw [getD_set_ne _ _ _ hne, getD_set_ne _ _ _ hne]
            exact hkeys i' h1
      · have hcond' : ¬(0 < t.filters.length ∧
            minDiff ≤ popCount (andNot (filter key)
              (t.filters.getD (t.filters.length - 1) 0))) := by
          rw [← hf]; exact hcond
        rw [Add_newBucket hm hcond, Add_newBucket hm' hcond']
        rw [Add_newBucket hm hcond] at hts'
        rw [Add_newBucket hm' hcond'] at htt'
        refine ⟨rfl, ?_, ?_, hts', htt'⟩
        · show s.filters ++ [filter key] = t.filters ++ [filter key]
          rw [hf]
        · intro i' hi'
          have h1 : i' < (s.filters ++ [filter key]).length := hi'
          rw [List.length_append] at h1
          simp only [List.length_cons, List.length_nil] at h1
          show ((newSlots s).set s.filters.length
              ((newSlots s).getD s.filters.length [] ++ [key])).getD i' [] =
            ((newSlots t).set t.filters.length
              ((newSlots t).getD t.filters.length [] ++ [key])).getD i' []
          have hns : s.filters.length < (newSlots s).length := by
            rw [newSlots_length hts]; omega
          have hnt : s.filters.length < (newSlots t).length := by
            rw [newSlots_length htt]; omega
          rcases eq_or_ne s.filters.length i' with heq | hne
          · rw [← heq, ← hlen,
              getD_set_self _ _ _ hns, getD_set_self _ _ _ hnt,
              newSlots_getD_self hts, newSlots_getD_ge htt (by omega)]
          · have hne' : t.filters.length ≠ i' := by omega
            have hi'lt : i' < s.filters.length := by omega
            rw [getD_set_ne _ _ _ hne, getD_set_ne _ _ _ hne',
              newSlots_getD_lt hts hi'lt, newSlots_getD_lt htt (by omega)]
            exact hkeys i' hi'lt

theorem SimR.reset_sim {s t : GoSet} (h : SimR s t) : SimR s.Reset t.Reset := by
  refine ⟨rfl, ?_, tidy_reset h.2.2.1.2.2, tidy_reset h.2.2.2.2.2⟩
  intro i hi
  exact absurd (show i < 0 from hi) (Nat.not_lt_zero i)

/-- Related states produce identical traces of return values. -/
theorem trace_eq {ops : List SOp} {s t : GoSet} (h : SimR s t) :
    trace ops s = trace ops t := by
  induction ops generalizing s t with
  | nil => rfl
  | cons op rest ih =>
      cases op with
      | add k =>
          have hsim := h.add_sim k
          simp only [trace]
          rw [hsim.1, ih hsim.2]
      | contains k =>
          simp only [trace]
          rw [h.contains_eq k, ih h]
      | keys =>
          simp only [trace]
          rw [h.keys_eq, ih h]
      | reset =>
          simp only [trace]
          exact ih h.reset_sim

/-! ### Dense bitset facts -/

/-- One growth-or-insertion operation of the `Dense` API. -/
inductive DOp where
  | add (key : Nat)
  | grow (key : Nat)
deriving Repr, DecidableEq

/-- Run a sequence of Dense operations. -/
def runDense : List DOp → GoDense → GoDense
  | [], s => s
  | DOp.add k :: ops, s => runDense ops (s.Add k)
  | DOp.grow k :: ops, s => runDense ops (s.Grow k)

/-- Key `k`'s bit is clear in the visible backing words. -/
def BitClear (s : GoDense) (k : Nat) : Prop :=
  s.v.getD (k / wordBits) 0 &&& (1 <<< (k % wordBits)) = 0

theorem bitClear_mk {v sp : List Nat} {k : Nat} :
    BitClear ⟨v, sp⟩ k ↔
      v.getD (k / wordBits) 0 &&& (1 <<< (k % wordBits)) = 0 :=
  Iff.rfl

theorem getD_replicate_zero {i n : Nat} :
    (List.replicate n (0 : Nat)).getD i 0 = 0 := by
  rw [List.getD_eq_getElem?_getD, List.getElem?_replicate]
  by_cases h : i < n
  · rw [if_pos h]
    rfl
  · rw [if_neg h]
    rfl

theorem getD_append_replicate_zero (v : List Nat) (m i : Nat) :
    (v ++ List.replicate m (0 : Nat)).getD i 0 = v.getD i 0 := by
  rcases Nat.lt_or_ge i v.length with h | h
  · rw [getD_append_lt _ _ _ h]
  · rw [getD_append_ge _ _ _ h, getD_of_ge v 0 h, getD_replicate_zero]

/-- `grow` zero-fills every word it exposes, so it never sets a bit. -/
theorem bitClear_grow {s : GoDense} {k : Nat} (h : BitClear s k) (w : Nat) :
    BitClear (s.grow w) k := by
  rw [GoDense.grow]
  by_cases h1 : s.v.length + s.spare.length ≤ w
  · rw [if_pos h1, bitClear_mk, getD_append_replicate_zero]
    exact h
  · rw [if_neg h1]
    by_cases h2 : s.v.length ≤ w
    · rw [if_pos h2, bitClear_mk, getD_append_replicate_zero]
      exact h
    · rw [if_neg h2]
      exact h

theorem bitClear_setbit {u : GoDense} {k j : Nat} (hjk : j ≠ k)
    (h : BitClear u k) :
    BitClear ⟨u.v.set (j / wordBits)
        (u.v.getD (j / wordBits) 0 ||| (1 <<< (j % wordBits))),
      u.spare⟩ k := by
  rw [bitClear_mk]
  rcases eq_or_ne (j / wordBits) (k / wordBits) with heq | hne
  · have hmod : j % wordBits ≠ k % wordBits := by
      intro hmm
      apply hjk
      have h1 := Nat.div_add_mod j wordBits
      have h2 := Nat.div_add_mod k wordBits
      rw [heq, hmm] at h1
      omega
    rcases Nat.lt_or_ge (k / wordBits) u.v.length with hlt | hge
    · rw [heq, getD_set_self _ _ _ hlt]
      exact land_shift_of_ne h hmod
    · rw [List.set_eq_of_length_le (heq.symm ▸ hge)]
      exact h
  · rw [getD_set_ne _ _ _ hne]
    exact h

/-- Adding a different key never sets key `k`'s bit. -/
theorem bitClear_Add {s : GoDense} {k j : Nat} (hjk : j ≠ k)
    (h : BitClear s k) : BitClear (s.Add j) k := by
  have hs1 : BitClear (if s.v.length ≤ j / wordBits
      then s.grow (j / wordBits + 1) else s) k := by
    by_cases hg : s.v.length ≤ j / wordBits
    · rw [if_pos hg]
      exact bitClear_grow h _
    · rw [if_neg hg]
      exact h
  exact bitClear_setbit hjk hs1

theorem contains_false_of_bitClear {s : GoDense} {k : Nat}
    (h : BitClear s k) : s.Contains k = false := by
  have h0 : s.v.getD (k / wordBits) 0 &&& (1 <<< (k % wordBits)) = 0 := h
  show (if s.v.length ≤ k / wordBits then false
    else decide (s.v.getD (k / wordBits) 0 &&& (1 <<< (k % wordBits)) ≠ 0)) =
      false
  by_cases hw : s.v.length ≤ k / wordBits
  · rw [if_pos hw]
  · rw [if_neg hw, h0]
    rfl

theorem bitClear_reset (s : GoDense) (k : Nat) : BitClear s.Reset k := by
  rw [GoDense.Reset, bitClear_mk, List.getD_nil]
  exact Nat.zero_and _

theorem bitClear_runDense {ops : List DOp} {s : GoDense} {k : Nat}
    (hops : DOp.add k ∉ ops) (h : BitClear s k) :
    BitClear (runDense ops s) k := by
  induction ops generalizing s with
  | nil => exact h
  | cons op rest ih =>
      cases op with
      | add j =>
          have hjk : j ≠ k := by
            intro hj
            subst hj
            exact hops (List.mem_cons_self ..)
          exact ih (fun hmem => hops (List.mem_cons_of_mem _ hmem))
            (bitClear_Add hjk h)
      | grow j =>
          exact ih (fun hmem => hops (List.mem_cons_of_mem _ hmem))
            (bitClear_grow h _)

/-! ### The claims -/

/-- C1: over any sequence of `Set.Add` calls from the zero set (with no
intervening `Reset`), every key present in the set appears in exactly one
bucket's member list: no member list repeats a key, no two distinct
buckets share a key, and the flattened member lists have no duplicates —
in particular the asymmetric-match duplicate-insertion hazard never
materializes, because a filter only ever widens while its bucket is last. -/
theorem claim_c1 (ks : List Nat) :
    (∀ i, ((runAdds ks).keys.getD i []).Nodup) ∧
    (∀ i j k, i ≠ j → k ∈ (runAdds ks).keys.getD i [] →
      k ∉ (runAdds ks).keys.getD j []) ∧
    ((runAdds ks).keys.flatten).Nodup := by
  have hnd : ((runAdds ks).keys.flatten).Nodup :=
    (addAll_inv setInv_empty ks).2.2.2
  have hparts := List.nodup_flatten.mp hnd
  refine ⟨?_, ?_, hnd⟩
  · intro i
    rcases Nat.lt_or_ge i (runAdds ks).keys.length with h | h
    · exact hparts.1 _ (getD_mem _ _ h)
    · rw [getD_of_ge _ _ h]
      exact List.nodup_nil
  · intro i j k hij hki hkj
    have hpw := hparts.2
    rw [List.pairwise_iff_getElem] at hpw
    have hi : i < (runAdds ks).keys.length := by
      by_contra hge
      rw [getD_of_ge _ _ (Nat.le_of_not_lt hge)] at hki
      exact absurd hki (List.not_mem_nil k)
    have hj : j < (runAdds ks).keys.length := by
      by_contra hge
      rw [getD_of_ge _ _ (Nat.le_of_not_lt hge)] at hkj
      exact absurd hkj (List.not_mem_nil k)
    rw [getD_of_lt _ _ hi] at hki
    rw [getD_of_lt _ _ hj] at hkj
    rcases Nat.lt_or_ge i j with hlt | hge
    · exact hpw i j hi hj hlt hki hkj
    · have hlt : j < i := by omega
      exact hpw j i hj hi hlt hkj hki

/-- C2: inserting any finite list of keys into a zero `Set` via `Add`, in
any order, makes `Contains` answer true exactly on the inserted keys; on
the zero-value set with nothing added, `Contains` is false everywhere. -/
theorem claim_c2 :
    (∀ k, emptySet.Contains k = false) ∧
    ∀ ks k, (runAdds ks).Contains k = true ↔ k ∈ ks := by
  constructor
  · intro k
    rfl
  · intro ks k
    rw [runAdds, contains_iff_mem (addAll_inv setInv_empty ks) k,
      addAll_mem setInv_empty]
    simp [emptySet]

/-- C3: on every reachable `Set` state, `Add k` returns true exactly when
`k` is not yet contained; a false return leaves the state completely
unchanged; and a second `Add k` directly after a first returns false while
`Contains k` stays true. -/
theorem claim_c3 (s : GoSet) (k : Nat) (hs : Reach s) :
    ((s.Add k).1 = true ↔ s.Contains k = false) ∧
    ((s.Add k).1 = false → (s.Add k).2 = s) ∧
    (((s.Add k).2.Add k).1 = false) ∧
    ((s.Add k).2.Contains k = true) := by
  have h := reach_inv hs
  have hspec := add_spec h k
  have h1 := hspec.2.1
  have h2 := contains_iff_mem h k
  have h' : SetInv (s.Add k).2 := hspec.1
  have hmem' : k ∈ ((s.Add k).2).keys.flatten := by
    rw [add_mem_flatten h k k]
    exact Or.inr rfl
  refine ⟨?_, hspec.2.2.1, ?_, ?_⟩
  · constructor
    · intro hb
      cases hc : s.Contains k with
      | false => rfl
      | true =>
          have h4 := h1.mpr (h2.mp hc)
          rw [hb] at h4
          exact Bool.noConfusion h4
    · intro hc
      cases hb : (s.Add k).1 with
      | true => rfl
      | false =>
          have h4 := h2.mpr (h1.mp hb)
          rw [hc] at h4
          exact Bool.noConfusion h4
  · exact ((add_spec h' k).2.1).mpr hmem'
  · exact (contains_iff_mem h' k).mpr hmem'

theorem claim_c3_witness :
    ((emptySet.Add 1).1 = true ↔ emptySet.Contains 1 = false) ∧
    ((emptySet.Add 1).1 = false → (emptySet.Add 1).2 = emptySet) ∧
    (((emptySet.Add 1).2.Add 1).1 = false) ∧
    ((emptySet.Add 1).2.Contains 1 = true) :=
  claim_c3 emptySet 1 Reach.empty

/-- C4: in every reachable `Set` state — so after any interleaving of
`Add`, `Contains`, `Keys` and `Reset` — every key `k` stored in bucket
`i`'s member list satisfies `filters[i] &&& filter k = filter k`: the
bucket's fingerprint is a bit-superset of the scrambled key. -/
theorem claim_c4 (s : GoSet) (hs : Reach s) (i k : Nat)
    (hi : i < s.filters.length) (hk : k ∈ s.keys.getD i []) :
    s.filters.getD i 0 &&& filter k = filter k :=
  (reach_inv hs).2.1 i hi k hk

theorem claim_c4_witness :
    0 < ((emptySet.Add 5).2).filters.length ∧
    5 ∈ ((emptySet.Add 5).2).keys.getD 0 [] ∧
    ((emptySet.Add 5).2).filters.getD 0 0 &&& filter 5 = filter 5 :=
  ⟨by decide, by decide,
    claim_c4 (emptySet.Add 5).2 (Reach.add emptySet 5 Reach.empty) 0 5
      (by decide) (by decide)⟩

/-- C5: a populated-then-`Reset` set is observationally equivalent to the
zero-value set: every subsequent sequence of `Add`/`Contains`/`Keys` (and
further `Reset`) operations returns identical values on both. -/
theorem claim_c5 (s : GoSet) (hs : Reach s) (ops : List SOp) :
    trace ops s.Reset = trace ops emptySet := by
  apply trace_eq
  have h := reach_inv hs
  refine ⟨rfl, ?_, tidy_reset h.1.2.2, setInv_empty.1⟩
  intro i hi
  exact absurd (show i < 0 from hi) (Nat.not_lt_zero i)

theorem claim_c5_witness :
    trace [SOp.contains 1, SOp.add 1, SOp.keys] ((runAdds [1, 2]).Reset) =
      trace [SOp.contains 1, SOp.add 1, SOp.keys] emptySet :=
  claim_c5 (runAdds [1, 2])
    (Reach.add ((emptySet.Add 1).2) 2 (Reach.add emptySet 1 Reach.empty))
    [SOp.contains 1, SOp.add 1, SOp.keys]

/-- C6: when `Add` finds no bucket whose filter is a bit-superset of
`r = filter key`, it returns true and: if a bucket exists and `r` would
contribute at least `minDiff` new bits to the last filter, `r` is OR-ed
into the last filter and the key appended to the last member list;
otherwise a fresh bucket with filter exactly `r` and member list exactly
`[key]` is appended after all existing buckets, the earlier member lists
staying untouched. -/
theorem claim_c6 (s : GoSet) (key : Nat) (ht : Tidy s)
    (hnone : ∀ f ∈ s.filters, ¬(f &&& filter key = filter key)) :
    (s.Add key).1 = true ∧
    ((0 < s.filters.length ∧
        minDiff ≤ popCount (andNot (filter key)
          (s.filters.getD (s.filters.length - 1) 0))) →
      (s.Add key).2.filters = s.filters.set (s.filters.length - 1)
        (s.filters.getD (s.filters.length - 1) 0 ||| filter key) ∧
      (s.Add key).2.keys.getD (s.filters.length - 1) [] =
        s.keys.getD (s.filters.length - 1) [] ++ [key]) ∧
    (¬(0 < s.filters.length ∧
        minDiff ≤ popCount (andNot (filter key)
          (s.filters.getD (s.filters.length - 1) 0))) →
      (s.Add key).2.filters = s.filters ++ [filter key] ∧
      (s.Add key).2.keys.getD s.filters.length [] = [key] ∧
      ∀ i, i < s.filters.length →
        (s.Add key).2.keys.getD i [] = s.keys.getD i []) := by
  have hm : firstMatch (filter key) s.filters = none :=
    firstMatch_eq_none.mpr hnone
  by_cases hcond : 0 < s.filters.length ∧
      minDiff ≤ popCount (andNot (filter key)
        (s.filters.getD (s.filters.length - 1) 0))
  · rw [Add_orLast hm hcond]
    refine ⟨rfl, fun _ => ⟨rfl, ?_⟩, fun hc => absurd hcond hc⟩
    show (s.keys.set (s.filters.length - 1)
        (s.keys.getD (s.filters.length - 1) [] ++ [key])).getD
      (s.filters.length - 1) [] = s.keys.getD (s.filters.length - 1) [] ++ [key]
    rw [getD_set_self _ _ _ (by have h1 := ht.1; have h2 := hcond.1; omega)]
  · rw [Add_newBucket hm hcond]
    refine ⟨rfl, fun hc => absurd hc hcond, fun _ => ⟨rfl, ?_, ?_⟩⟩
    · show ((newSlots s).set s.filters.length
          ((newSlots s).getD s.filters.length [] ++ [key])).getD
        s.filters.length [] = [key]
      rw [getD_set_self _ _ _ (by rw [newSlots_length ht]; omega),
        newSlots_getD_self ht, List.nil_append]
    · intro i hi
      show ((newSlots s).set s.filters.length
          ((newSlots s).getD s.filters.length [] ++ [key])).getD i [] =
        s.keys.getD i []
      rw [getD_set_ne _ _ _ (by omega), newSlots_getD_lt ht hi]

theorem claim_c6_witness :
    Tidy (runAdds [1]) ∧
    (∀ f ∈ (runAdds [1]).filters, ¬(f &&& filter 2 = filter 2)) ∧
    ((runAdds [1]).Add 2).1 = true :=
  ⟨by decide, by decide, (claim_c6 (runAdds [1]) 2 (by decide) (by decide)).1⟩

/-- C7: `Keys` returns the concatenation of the bucket member lists in
bucket-index order; on a set holding no keys it returns the empty result;
and after inserting `N` distinct keys it returns a permutation of exactly
those keys, with length `N`. -/
theorem claim_c7 :
    (∀ s : GoSet, s.Keys = s.keys.flatten) ∧
    GoSet.Keys emptySet = [] ∧
    ∀ ks : List Nat, ks.Nodup →
      ((runAdds ks).Keys).length = ks.length ∧ ((runAdds ks).Keys).Perm ks := by
  refine ⟨Keys_eq_flatten, rfl, ?_⟩
  intro ks hnd
  have hperm : ((runAdds ks).Keys).Perm ks := by
    rw [Keys_eq_flatten]
    exact addAll_perm setInv_empty ks hnd
      (fun k _ hmem => absurd hmem (List.not_mem_nil k))
  exact ⟨hperm.length_eq, hperm⟩

theorem claim_c7_witness :
    ([1, 2, 3] : List Nat).Nodup ∧
    ((runAdds [1, 2, 3]).Keys).length = 3 ∧
    ((runAdds [1, 2, 3]).Keys).Perm [1, 2, 3] :=
  ⟨by decide, (claim_c7.2.2 [1, 2, 3] (by decide)).1,
    (claim_c7.2.2 [1, 2, 3] (by decide)).2⟩

/-- C8 is false on the code: `Dense.Grow` computes
`(key + wordSize - 1) / wordSize` words, which for `key` a multiple of the
word size is one word short of what holding `key` needs. After
`Grow 64` the backing has one word (keys 0–63 only), `64 / wordSize = 1`
is not within the length, and `Add 64` must grow the backing to two
words; likewise `Grow 0` reserves nothing for key 0. This contradicts
`Grow`'s own doc comment ("sufficient space to hold the given key without
needing to reallocate"). -/
theorem claim_c8_bug :
    (emptyDense.Grow 64).v.length = 1 ∧
    ¬(64 / wordBits < (emptyDense.Grow 64).v.length) ∧
    ((emptyDense.Grow 64).Add 64).v.length = 2 ∧
    (emptyDense.Grow 0).v.length = 0 := by
  decide

/-- C9: after `Dense.Reset`, `Contains k` is false for every key `k`, and
stays false across any further `Grow`/`Add` operations that do not re-add
`k` itself: growth re-exposing retained capacity zero-fills every exposed
word, so no stale pre-`Reset` bit is ever observable. -/
theorem claim_c9 (s : GoDense) (ops : List DOp) (k : Nat)
    (h : DOp.add k ∉ ops) :
    (runDense ops s.Reset).Contains k = false :=
  contains_false_of_bitClear (bitClear_runDense h (bitClear_reset s k))

theorem claim_c9_witness :
    (DOp.add 3 ∉ [DOp.grow 10, DOp.add 5]) ∧
    (runDense [DOp.grow 10, DOp.add 5]
      ((emptyDense.Add 3).Add 67).Reset).Contains 3 = false :=
  ⟨by decide,
    claim_c9 ((emptyDense.Add 3).Add 67) [DOp.grow 10, DOp.add 5] 3
      (by decide)⟩

/-- C10: a single `Set.Add` call never modifies the fingerprint of any
bucket that is not the last one: every filter with at least one bucket
after it is left exactly as it was, so a non-last fingerprint is frozen
until `Reset`. -/
theorem claim_c10 (s : GoSet) (key i : Nat)
    (hi : i + 1 < s.filters.length) :
    ((s.Add key).2).filters.getD i 0 = s.filters.getD i 0 := by
  cases hm : firstMatch (filter key) s.filters with
  | some j =>
      by_cases hk : key ∈ s.keys.getD j []
      · rw [Add_found hm hk]
      · rw [Add_append hm hk]
  | none =>
      by_cases hcond : 0 < s.filters.length ∧
          minDiff ≤ popCount (andNot (filter key)
            (s.filters.getD (s.filters.length - 1) 0))
      · rw [Add_orLast hm hcond]
        show (s.filters.set (s.filters.length - 1)
            (s.filters.getD (s.filters.length - 1) 0 ||| filter key)).getD
          i 0 = s.filters.getD i 0
        rw [getD_set_ne _ _ _ (by omega)]
      · rw [Add_newBucket hm hcond]
        show (s.filters ++ [filter key]).getD i 0 = s.filters.getD i 0
        rw [getD_append_lt _ _ _ (by omega)]

theorem claim_c10_witness :
    0 + 1 < (⟨[1, 2], [[10], [20]], []⟩ : GoSet).filters.length ∧
    ((⟨[1, 2], [[10], [20]], []⟩ : GoSet).Add 30).2.filters.getD 0 0 =
      (⟨[1, 2], [[10], [20]], []⟩ : GoSet).filters.getD 0 0 :=
  ⟨by decide, claim_c10 ⟨[1, 2], [[10], [20]], []⟩ 30 0 (by decide)⟩
